import Mathlib

set_option maxHeartbeats 1000000

/-!
Verification of the density-fitted J/K build kernel of `scf/dfhf.py`.

The development shallowly embeds the kernel over exact rational arithmetic:
square matrices are `Matrix (Fin n) (Fin n) ℚ`, packed triangular arrays are
`List ℚ` laid out row by row exactly as `pack_tril` lays them out, and the
auxiliary Cholesky factor is a function `cderi : ℕ → ℕ → ℚ` sending an
auxiliary row index and a packed pair index to the stored value.

External numerical collaborators are treated as oracles or are modelled from
the specification where noted: the generalized eigensolver
(`scipy.linalg.eigh(dm, s, type=2)`) enters through its outputs `e`, `c`
(with its LAPACK itype=2 contract `dm = c · diag e · cᵀ` taken as a
hypothesis where a claim needs it), and the elementwise square root
(`numpy.sqrt`) enters as a function parameter `sq` constrained only where a
claim needs `sq x · sq x = x`.
-/

namespace DFHF

/-- Eigenvalue drop threshold of the source (`OCCDROP = 1e-12`). -/
def OCCDROP : ℚ := 1e-12

/-- Auxiliary block size of the source (`BLOCKDIM = 160`). -/
def BLOCKDIM : ℕ := 160

/-- Number of packed triangular entries of an n×n symmetric matrix. -/
def npair (n : ℕ) : ℕ := n * (n + 1) / 2

/-- Flat packed index of the triangular entry (i, j), j ≤ i, as written in the
source loop: `i*(i+1)//2 + j`. -/
def tril_index (i j : ℕ) : ℕ := i * (i + 1) / 2 + j

/-- Fuel-driven worker for `prange`; the fuel bounds the number of emitted
blocks so that the definition is structural and kernel-evaluable. -/
def prangeAux : ℕ → ℕ → ℕ → ℕ → List (ℕ × ℕ)
  | 0, _, _, _ => []
  | fuel + 1, b, stop, step =>
    if b < stop ∧ 0 < step then
      (b, min (b + step) stop) :: prangeAux fuel (b + step) stop step
    else []

/-- Block iterator of the source:
`def prange(start, end, step): for i in range(start, end, step): yield i, min(i+step, end)`
(for a positive step, which is how the source always calls it). -/
def prange (start stop step : ℕ) : List (ℕ × ℕ) :=
  prangeAux (stop - start) start stop step

/-- Modelled from the spec: `pyscf.lib.pack_tril` (repository code outside src/)
packs the triangular part of a square matrix row by row into a flat array, the
entry (i, j) with j ≤ i landing at flat index `i*(i+1)/2 + j`.  This version
takes the entries as a total function on ℕ × ℕ. -/
def packTrilN (n : ℕ) (f : ℕ → ℕ → ℚ) : List ℚ :=
  (List.range n).flatMap fun i => (List.range (i + 1)).map fun j => f i j

/-- Packed triangular form of an n×n matrix (`pyscf.lib.pack_tril(a)`). -/
def packTril {n : ℕ} (a : Matrix (Fin n) (Fin n) ℚ) : List ℚ :=
  packTrilN n fun i j => if h : i < n ∧ j < n then a ⟨i, h.1⟩ ⟨j, h.2⟩ else 0

/-- The in-place diagonal halving loop of `fjk`:
`for i in range(nao): dmtril[i*(i+1)//2+i] *= .5`. -/
def halveDiag (nao : ℕ) (l : List ℚ) : List ℚ :=
  (List.range nao).foldl
    (fun acc i => acc.set (tril_index i i) (acc.getD (tril_index i i) 0 * (1 / 2))) l

/-- The packed symmetrized density `dmtril` built by `fjk` from a density
matrix: `dmtril = pyscf.lib.pack_tril(dm+dm.T)` followed by the diagonal
halving loop. -/
def dmtrilOf {n : ℕ} (dm : Matrix (Fin n) (Fin n) ℚ) : List ℚ :=
  halveDiag n (packTril (dm + dm.transpose))

/-- Modelled from the spec: `pyscf.lib.unpack_tril(buf, hermi=1)` (repository
code outside src/) unpacks a packed triangular array into the corresponding
symmetric square matrix. -/
def unpackTrilF (n : ℕ) (f : ℕ → ℚ) : Matrix (Fin n) (Fin n) ℚ :=
  Matrix.of fun i j =>
    if (j : ℕ) ≤ (i : ℕ) then f (tril_index i j) else f (tril_index j i)

/-- One auxiliary row of the factor dotted against the packed density:
the row-p component of `eri1 · dmtril`. -/
def trilDot (n : ℕ) (row : ℕ → ℚ) (dmtril : List ℚ) : ℚ :=
  ∑ k ∈ Finset.range (npair n), row k * dmtril.getD k 0

/-- The packed Coulomb buffer of one auxiliary block:
`buf = reduce(numpy.dot, (eri1, dmtril, eri1))` for the block rows
`[b0, b1)` of the factor. -/
def jbuf (n : ℕ) (cderi : ℕ → ℕ → ℚ) (dmtril : List ℚ) (b0 b1 : ℕ) : ℕ → ℚ :=
  fun k => ∑ p ∈ Finset.Ico b0 b1, trilDot n (cderi p) dmtril * cderi p k

/-- The Coulomb contribution of one auxiliary block:
`vj += pyscf.lib.unpack_tril(buf, hermi)`. -/
def jContrib (n : ℕ) (cderi : ℕ → ℕ → ℚ) (dmtril : List ℚ) (b0 b1 : ℕ) :
    Matrix (Fin n) (Fin n) ℚ :=
  unpackTrilF n (jbuf n cderi dmtril b0 b1)

/-- The symmetric nao×nao matrix stored (packed) at auxiliary row p of the
factor. -/
def eriMat (n : ℕ) (cderi : ℕ → ℕ → ℚ) (p : ℕ) : Matrix (Fin n) (Fin n) ℚ :=
  unpackTrilF n (cderi p)

/-- Modelled from the spec: the half-transform of an auxiliary block against a
coefficient set followed by the `buf.T @ buf` (resp. `buf.T @ buf1`)
contraction (the C kernels `RIhalfmmm_nr_s2_bra` / `RImmm_nr_s2_copy` driven
through `AO2MOnr_e2_drv`, repository code outside src/; the source states the
semantics in its own comments: `vk = einsum('pij,jk->kpi', cderi, C);
vk = einsum('kpi,kpj->ij', vk, vk)`).  For the block rows `[b0, b1)` and a
sandwiched matrix m this accumulates `Σ_p A_p · m · A_p`. -/
def kHalfContrib (n : ℕ) (cderi : ℕ → ℕ → ℚ) (m : Matrix (Fin n) (Fin n) ℚ)
    (b0 b1 : ℕ) : Matrix (Fin n) (Fin n) ℚ :=
  ∑ p ∈ Finset.Ico b0 b1, eriMat n cderi p * m * eriMat n cderi p

/-- Indices of the positive eigenvalue set: `pos = e > OCCDROP`, in increasing
column order. -/
def posList (n : ℕ) (e : Fin n → ℚ) : List (Fin n) :=
  (List.finRange n).filter fun j => decide (OCCDROP < e j)

/-- Indices of the negative eigenvalue set: `neg = e < -OCCDROP`, in increasing
column order. -/
def negList (n : ℕ) (e : Fin n → ℚ) : List (Fin n) :=
  (List.finRange n).filter fun j => decide (e j < -OCCDROP)

/-- Number of positive eigenvectors, `sum(pos)` in the source. -/
def npos (n : ℕ) (e : Fin n → ℚ) : ℕ := (posList n e).length

/-- Number of negative eigenvectors, `sum(neg)` in the source. -/
def nneg (n : ℕ) (e : Fin n → ℚ) : ℕ := (negList n e).length

/-- Positive pseudo-orbital coefficients:
`cpos = numpy.einsum('ij,j->ij', c[:,pos], numpy.sqrt(e[pos]))`,
with `sq` standing for the external `numpy.sqrt`. -/
def cpos (n : ℕ) (e : Fin n → ℚ) (c : Matrix (Fin n) (Fin n) ℚ) (sq : ℚ → ℚ) :
    Matrix (Fin n) (Fin (npos n e)) ℚ :=
  Matrix.of fun i k =>
    c i ((posList n e).get ⟨k.1, k.2⟩) * sq (e ((posList n e).get ⟨k.1, k.2⟩))

/-- Negative pseudo-orbital coefficients:
`cneg = numpy.einsum('ij,j->ij', c[:,neg], numpy.sqrt(-e[neg]))`. -/
def cneg (n : ℕ) (e : Fin n → ℚ) (c : Matrix (Fin n) (Fin n) ℚ) (sq : ℚ → ℚ) :
    Matrix (Fin n) (Fin (nneg n e)) ℚ :=
  Matrix.of fun i k =>
    c i ((negList n e).get ⟨k.1, k.2⟩) * sq (-e ((negList n e).get ⟨k.1, k.2⟩))

/-- The symmetric-path body of `fjk` (`hermi == 1`): the generalized
eigendecomposition outputs `e`, `c` of `scipy.linalg.eigh(dm, s, type=2)` are
taken as inputs since the eigensolver is an external collaborator.  The whole
block loop, including the Coulomb accumulation, sits under the source guard
`if sum(pos)+sum(neg) > 0`, and inside the loop the positive (negative)
exchange branch runs only when `cpos.shape[1] > 0` (`cneg.shape[1] > 0`). -/
def fjk_sym (n naux : ℕ) (cderi : ℕ → ℕ → ℚ) (sq : ℚ → ℚ)
    (dm : Matrix (Fin n) (Fin n) ℚ) (e : Fin n → ℚ)
    (c : Matrix (Fin n) (Fin n) ℚ) :
    Matrix (Fin n) (Fin n) ℚ × Matrix (Fin n) (Fin n) ℚ :=
  let dmtril := dmtrilOf dm
  if 0 < npos n e + nneg n e then
    (prange 0 naux BLOCKDIM).foldl
      (fun vjk b =>
        (vjk.1 + jContrib n cderi dmtril b.1 b.2,
          vjk.2
            + (if 0 < npos n e then
                kHalfContrib n cderi (cpos n e c sq * (cpos n e c sq).transpose)
                  b.1 b.2
              else 0)
            - (if 0 < nneg n e then
                kHalfContrib n cderi (cneg n e c sq * (cneg n e c sq).transpose)
                  b.1 b.2
              else 0)))
      (0, 0)
  else (0, 0)

/-- The general-path body of `fjk` (`hermi != 1`): the same Coulomb
accumulation, and the exchange built by half-transforming each block against
the raw density (`Σ_p A_p · dm · A_p` per block, see `kHalfContrib`). -/
def fjkG (n naux : ℕ) (cderi : ℕ → ℕ → ℚ)
    (dm : Matrix (Fin n) (Fin n) ℚ) :
    Matrix (Fin n) (Fin n) ℚ × Matrix (Fin n) (Fin n) ℚ :=
  let dmtril := dmtrilOf dm
  (prange 0 naux BLOCKDIM).foldl
    (fun vjk b =>
      (vjk.1 + jContrib n cderi dmtril b.1 b.2,
        vjk.2 + kHalfContrib n cderi dm b.1 b.2))
    (0, 0)

/-- The Coulomb matrix accumulated over every auxiliary block (what an
unsuppressed J accumulation produces). -/
def jTotal (n naux : ℕ) (cderi : ℕ → ℕ → ℚ)
    (dm : Matrix (Fin n) (Fin n) ℚ) : Matrix (Fin n) (Fin n) ℚ :=
  ((prange 0 naux BLOCKDIM).map fun b =>
    jContrib n cderi (dmtrilOf dm) b.1 b.2).sum

/-- The exchange contribution of a sandwiched matrix accumulated over every
auxiliary block. -/
def kTotal (n naux : ℕ) (cderi : ℕ → ℕ → ℚ)
    (m : Matrix (Fin n) (Fin n) ℚ) : Matrix (Fin n) (Fin n) ℚ :=
  ((prange 0 naux BLOCKDIM).map fun b => kHalfContrib n cderi m b.1 b.2).sum

/-- Per-matrix worker `fjk` of `get_jk_`, dispatching on the hermi flag; the
eigensolver is passed as an oracle `eigh` so that both paths are total
functions of the density matrix. -/
def fjk (n naux : ℕ) (cderi : ℕ → ℕ → ℚ) (sq : ℚ → ℚ)
    (eigh : Matrix (Fin n) (Fin n) ℚ → (Fin n → ℚ) × Matrix (Fin n) (Fin n) ℚ)
    (hermi : ℕ) (dm : Matrix (Fin n) (Fin n) ℚ) :
    Matrix (Fin n) (Fin n) ℚ × Matrix (Fin n) (Fin n) ℚ :=
  if hermi = 1 then fjk_sym n naux cderi sq dm (eigh dm).1 (eigh dm).2
  else fjkG n naux cderi dm

/-- Input shape of `get_jk_`: one 2-D density matrix, or an ordered batch. -/
inductive DmsInput (n : ℕ) where
  | single (dm : Matrix (Fin n) (Fin n) ℚ)
  | batch (dms : List (Matrix (Fin n) (Fin n) ℚ))

/-- Output shape of `get_jk_`: a single (J, K) pair for a 2-D input, or the
stacked per-matrix J list and K list for a batch. -/
inductive JkOutput (n : ℕ) where
  | single (jk : Matrix (Fin n) (Fin n) ℚ × Matrix (Fin n) (Fin n) ℚ)
  | batch (vj : List (Matrix (Fin n) (Fin n) ℚ))
      (vk : List (Matrix (Fin n) (Fin n) ℚ))

/-- Orchestration tail of `get_jk_`:
`if isinstance(dms, numpy.ndarray) and dms.ndim == 2: vj, vk = fjk(dms)
else: vjk = [fjk(dm) for dm in dms]; vj = array([x[0] ...]); vk = array([x[1] ...])`. -/
def get_jk (n naux : ℕ) (cderi : ℕ → ℕ → ℚ) (sq : ℚ → ℚ)
    (eigh : Matrix (Fin n) (Fin n) ℚ → (Fin n → ℚ) × Matrix (Fin n) (Fin n) ℚ)
    (hermi : ℕ) : DmsInput n → JkOutput n
  | .single dm => .single (fjk n naux cderi sq eigh hermi dm)
  | .batch dms =>
      .batch (dms.map fun dm => (fjk n naux cderi sq eigh hermi dm).1)
        (dms.map fun dm => (fjk n naux cderi sq eigh hermi dm).2)

/-- Where the auxiliary Cholesky factor is kept. -/
inductive CholeskyStorage where
  | inMemory
  | outOfCore

/-- Byte count of the in-memory factor: `nao*(nao+1)/2*naoaux*8` with the
source's integer division. -/
def cderiBytes (nao naoaux : ℕ) : ℕ := nao * (nao + 1) / 2 * naoaux * 8

/-- Storage decision of `get_jk_` when the factor is first built:
`if nao*(nao+1)/2*mf._naoaux*8 < mf.max_memory*1e6: incore else: outcore`
(`max_memory` is the caller-supplied budget in megabytes, so
`max_memory*1e6` is the budget expressed in bytes). -/
def chooseStorage (nao naoaux : ℕ) (max_memory : ℚ) : CholeskyStorage :=
  if (cderiBytes nao naoaux : ℚ) < max_memory * 1000000 then
    CholeskyStorage.inMemory
  else CholeskyStorage.outOfCore

/-- The general-path worker with the bounds check the interpreter performs in
the diagonal-halving loop made explicit: `dmtril[i*(i+1)//2+i] *= .5` raises
IndexError (modelled as `none`) as soon as some touched index is out of range
of the packed density, which happens exactly when the density dimension is
smaller than the overlap dimension nao.  Densities of dimension nao proceed
into the block loop.  (A density strictly larger than nao passes this loop
and only fails later inside the first block's accumulations; that regime is
outside this model and outside the theorems below.) -/
def fjkG_checked (nao naux : ℕ) (cderi : ℕ → ℕ → ℚ) (m : ℕ)
    (dm : Matrix (Fin m) (Fin m) ℚ) :
    Option (Matrix (Fin m) (Fin m) ℚ × Matrix (Fin m) (Fin m) ℚ) :=
  if ∀ i ∈ List.range nao, tril_index i i < (packTril (dm + dm.transpose)).length
  then some (fjkG m naux cderi dm)
  else none

/-- Batched run of the checked worker, mirroring
`vjk = [fjk(dm) for dm in dms]`: the matrices are processed strictly in
order, an exception aborts the whole call (first component `none`), and the
second component counts the auxiliary blocks contracted before the call
either finishes or aborts. -/
def runBatch (nao naux : ℕ) (cderi : ℕ → ℕ → ℚ) :
    List ((m : ℕ) × Matrix (Fin m) (Fin m) ℚ) →
      Option (List ((m : ℕ) ×
        (Matrix (Fin m) (Fin m) ℚ × Matrix (Fin m) (Fin m) ℚ))) × ℕ
  | [] => (some [], 0)
  | d :: rest =>
    match fjkG_checked nao naux cderi d.1 d.2 with
    | none => (none, 0)
    | some jk =>
      let r := runBatch nao naux cderi rest
      (r.1.map fun l => ⟨d.1, jk⟩ :: l,
        (prange 0 naux BLOCKDIM).length + r.2)

/-- A heap of flat numeric arrays, used to state the frame property of the
density preprocessing: `arrays` maps an array identifier to its contents and
`next` is the next fresh identifier (every live array has an identifier below
`next`). -/
structure Store where
  arrays : ℕ → List ℚ
  next : ℕ

/-- Allocation of a fresh array (what `pack_tril` does for its output). -/
def Store.alloc (st : Store) (v : List ℚ) : ℕ × Store :=
  (st.next, ⟨fun a => if a = st.next then v else st.arrays a, st.next + 1⟩)

/-- The diagonal-halving loop acting in place on the array `tid` of the
store: the only writes the density preprocessing performs. -/
def halveDiagStore (nao tid : ℕ) (st : Store) : Store :=
  (List.range nao).foldl
    (fun t i =>
      ⟨fun a =>
        if a = tid then
          (t.arrays tid).set (tril_index i i)
            ((t.arrays tid).getD (tril_index i i) 0 * (1 / 2))
        else t.arrays a,
        t.next⟩)
    st

/-- Density preprocessing of `fjk` over the store: read the density stored
row-major at `dmId`, pack `dm + dm.T` into a freshly allocated array, then
halve its diagonal entries in place.  Only the fresh array is ever written. -/
def prepareDmtril (n : ℕ) (st : Store) (dmId : ℕ) : ℕ × Store :=
  let a := st.arrays dmId
  let packed := packTrilN n fun i j => a.getD (i * n + j) 0 + a.getD (j * n + i) 0
  let fresh := st.alloc packed
  (fresh.1, halveDiagStore n fresh.1 fresh.2)

/-! ### Triangular index arithmetic -/

theorem tril_eq (i j : ℕ) : tril_index i j = npair i + j := rfl

theorem npair_succ (n : ℕ) : npair (n + 1) = npair n + (n + 1) := by
  show (n + 1) * (n + 1 + 1) / 2 = n * (n + 1) / 2 + (n + 1)
  have h : (n + 1) * (n + 1 + 1) = n * (n + 1) + 2 * (n + 1) := by ring
  rw [h, Nat.add_mul_div_left _ _ (by norm_num : (0 : ℕ) < 2)]

theorem npair_mono {i j : ℕ} (h : i ≤ j) : npair i ≤ npair j :=
  Nat.div_le_div_right (Nat.mul_le_mul h (by omega))

theorem tril_lt_npair {i j : ℕ} (hj : j ≤ i) : tril_index i j < npair (i + 1) := by
  rw [tril_eq, npair_succ]; omega

theorem tril_inj {i j i' j' : ℕ} (hj : j ≤ i) (hj' : j' ≤ i')
    (h : tril_index i j = tril_index i' j') : i = i' ∧ j = j' := by
  rw [tril_eq, tril_eq] at h
  have hii : i = i' := by
    rcases lt_trichotomy i i' with hlt | heq | hgt
    · have h1 : npair i + j < npair (i + 1) := by rw [npair_succ]; omega
      have h2 : npair (i + 1) ≤ npair i' := npair_mono hlt
      omega
    · exact heq
    · have h1 : npair i' + j' < npair (i' + 1) := by rw [npair_succ]; omega
      have h2 : npair (i' + 1) ≤ npair i := npair_mono hgt
      omega
  subst hii
  exact ⟨rfl, by omega⟩

theorem tril_diag_inj {i i' : ℕ} (h : tril_index i i = tril_index i' i') : i = i' :=
  (tril_inj le_rfl le_rfl h).1

/-! ### Block iterator -/

theorem prangeAux_congr :
    ∀ (f1 f2 b stop step : ℕ), stop - b ≤ f1 → stop - b ≤ f2 →
      prangeAux f1 b stop step = prangeAux f2 b stop step := by
  intro f1
  induction f1 with
  | zero =>
    intro f2 b stop step h1 _
    have hb : ¬b < stop := by omega
    cases f2 with
    | zero => rfl
    | succ f2' => show _ = if _ then _ else _; rw [if_neg (by tauto)]; rfl
  | succ f1' ih =>
    intro f2 b stop step h1 h2
    cases f2 with
    | zero =>
      have hb : ¬b < stop := by omega
      show (if _ then _ else _) = _
      rw [if_neg (by tauto)]; rfl
    | succ f2' =>
      show (if _ then _ else _) = if _ then _ else _
      by_cases hc : b < stop ∧ 0 < step
      · rw [if_pos hc, if_pos hc]
        rw [ih f2' (b + step) stop step (by omega) (by omega)]
      · rw [if_neg hc, if_neg hc]

theorem prange_eq (b stop step : ℕ) :
    prange b stop step =
      if b < stop ∧ 0 < step then
        (b, min (b + step) stop) :: prange (b + step) stop step
      else [] := by
  unfold prange
  rcases Nat.lt_or_ge b stop with h | h
  · obtain ⟨f, hf⟩ : ∃ f, stop - b = f + 1 := ⟨stop - b - 1, by omega⟩
    rw [hf]
    show (if _ then _ else _) = if _ then _ else _
    by_cases hc : b < stop ∧ 0 < step
    · rw [if_pos hc, if_pos hc]
      rw [prangeAux_congr f (stop - (b + step)) (b + step) stop step
        (by omega) (by omega)]
    · rw [if_neg hc, if_neg hc]
  · have h0 : stop - b = 0 := by omega
    rw [h0, if_neg (by omega : ¬(b < stop ∧ 0 < step))]
    rfl

theorem prange_eq_nil {b stop step : ℕ} (h : stop ≤ b) : prange b stop step = [] := by
  rw [prange_eq, if_neg (by omega)]

theorem prange_flatten_aux (step : ℕ) (hs : 0 < step) :
    ∀ (fuel b stop : ℕ), stop - b ≤ fuel →
      (prange b stop step).flatMap (fun p => List.range' p.1 (p.2 - p.1)) =
        List.range' b (stop - b) := by
  intro fuel
  induction fuel with
  | zero =>
    intro b stop h
    have h0 : stop - b = 0 := by omega
    rw [prange_eq, if_neg (by omega), h0]
    rfl
  | succ f ih =>
    intro b stop h
    rw [prange_eq]
    by_cases hb : b < stop
    · rw [if_pos ⟨hb, hs⟩, List.flatMap_cons]
      rw [ih (b + step) stop (by omega)]
      rcases le_or_lt (b + step) stop with hle | hlt
      · have h1 : min (b + step) stop - b = step := by omega
        rw [h1]
        have h2 := List.range'_append b step (stop - (b + step)) 1
        simp only [one_mul] at h2
        rw [h2]
        congr 1
        omega
      · have h1 : min (b + step) stop - b = stop - b := by omega
        have h2 : stop - (b + step) = 0 := by omega
        rw [h1, h2]
        simp
    · rw [if_neg (by tauto)]
      have h0 : stop - b = 0 := by omega
      rw [h0]
      rfl

theorem prange_flatten {step : ℕ} (hs : 0 < step) (b stop : ℕ) :
    (prange b stop step).flatMap (fun p => List.range' p.1 (p.2 - p.1)) =
      List.range' b (stop - b) :=
  prange_flatten_aux step hs (stop - b) b stop le_rfl

theorem prange_mem_shape {step : ℕ} (hs : 0 < step) :
    ∀ (fuel b stop : ℕ), stop - b ≤ fuel →
      ∀ p ∈ prange b stop step,
        p.2 = min (p.1 + step) stop ∧ p.1 < p.2 ∧ p.2 - p.1 ≤ step := by
  intro fuel
  induction fuel with
  | zero =>
    intro b stop h p hp
    rw [prange_eq, if_neg (by omega)] at hp
    simp at hp
  | succ f ih =>
    intro b stop h p hp
    rw [prange_eq] at hp
    by_cases hb : b < stop
    · rw [if_pos ⟨hb, hs⟩] at hp
      rcases List.mem_cons.mp hp with hp | hp
      · subst hp
        refine ⟨rfl, ?_, by omega⟩
        show b < min (b + step) stop
        omega
      · exact ih (b + step) stop (by omega) p hp
    · rw [if_neg (by tauto)] at hp
      simp at hp

/-! ### Packed triangular arrays -/

theorem packTrilN_succ (n : ℕ) (f : ℕ → ℕ → ℚ) :
    packTrilN (n + 1) f = packTrilN n f ++ (List.range (n + 1)).map (f n) := by
  unfold packTrilN
  nth_rewrite 1 [List.range_succ]
  rw [List.flatMap_append]
  congr 1
  simp

theorem packTrilN_length (n : ℕ) (f : ℕ → ℕ → ℚ) :
    (packTrilN n f).length = npair n := by
  induction n with
  | zero => rfl
  | succ m ih =>
    rw [packTrilN_succ, List.length_append, ih, List.length_map,
      List.length_range, npair_succ]

theorem packTrilN_get? (n : ℕ) (f : ℕ → ℕ → ℚ) {i j : ℕ} (hj : j ≤ i) (hi : i < n) :
    (packTrilN n f).get? (tril_index i j) = some (f i j) := by
  induction n with
  | zero => omega
  | succ m ih =>
    rw [packTrilN_succ]
    rcases Nat.lt_or_ge i m with him | him
    · rw [List.get?_append]
      · exact ih him
      · rw [packTrilN_length]
        exact lt_of_lt_of_le (tril_lt_npair hj) (npair_mono him)
    · have him' : i = m := by omega
      subst him'
      rw [List.get?_append_right (by rw [packTrilN_length, tril_eq]; omega)]
      rw [packTrilN_length]
      have hidx : tril_index i j - npair i = j := by rw [tril_eq]; omega
      rw [hidx, List.get?_map, List.get?_range (by omega : j < i + 1)]
      rfl

theorem halveDiag_succ (m : ℕ) (l : List ℚ) :
    halveDiag (m + 1) l =
      (halveDiag m l).set (tril_index m m)
        ((halveDiag m l).getD (tril_index m m) 0 * (1 / 2)) := by
  unfold halveDiag
  rw [List.range_succ, List.foldl_append]
  rfl

theorem halveDiag_length (m : ℕ) (l : List ℚ) :
    (halveDiag m l).length = l.length := by
  induction m with
  | zero => rfl
  | succ m' ih => rw [halveDiag_succ, List.length_set, ih]

theorem halveDiag_get?_ne (m : ℕ) (l : List ℚ) {k : ℕ}
    (hk : ∀ i, i < m → k ≠ tril_index i i) :
    (halveDiag m l).get? k = l.get? k := by
  induction m with
  | zero => rfl
  | succ m' ih =>
    rw [halveDiag_succ, List.get?_set_ne _ _ (hk m' (by omega)).symm]
    exact ih fun i hi => hk i (by omega)

theorem halveDiag_get?_diag (m : ℕ) (l : List ℚ) {i0 : ℕ} (h : i0 < m) :
    (halveDiag m l).get? (tril_index i0 i0) =
      (l.get? (tril_index i0 i0)).map (· * (1 / 2)) := by
  induction m with
  | zero => omega
  | succ m' ih =>
    rw [halveDiag_succ]
    rcases Nat.lt_or_ge i0 m' with h' | h'
    · rw [List.get?_set_ne _ _ (fun hEq => by have := tril_diag_inj hEq; omega)]
      exact ih h'
    · have hi0 : i0 = m' := by omega
      subst hi0
      rw [List.get?_set_eq]
      have hne : (halveDiag i0 l).get? (tril_index i0 i0) = l.get? (tril_index i0 i0) :=
        halveDiag_get?_ne i0 l fun i hi hEq => by have := tril_diag_inj hEq; omega
      rw [List.getD_eq_getD_get?, hne]
      cases hv : l.get? (tril_index i0 i0) with
      | none => simp [hne, hv]
      | some v => simp [hne, hv]

/-! ### Generic accumulation lemmas -/

theorem foldl_pair_add {α : Type} {n : ℕ} (f g : α → Matrix (Fin n) (Fin n) ℚ) :
    ∀ (l : List α) (a b : Matrix (Fin n) (Fin n) ℚ),
      l.foldl (fun vjk x => (vjk.1 + f x, vjk.2 + g x)) (a, b) =
        (a + (l.map f).sum, b + (l.map g).sum) := by
  intro l
  induction l with
  | nil => intro a b; simp
  | cons x l ih =>
    intro a b
    rw [List.foldl_cons, ih]
    simp [add_assoc]

theorem foldl_pair_add_sub {α : Type} {n : ℕ}
    (f g h : α → Matrix (Fin n) (Fin n) ℚ) :
    ∀ (l : List α) (a b : Matrix (Fin n) (Fin n) ℚ),
      l.foldl (fun vjk x => (vjk.1 + f x, vjk.2 + g x - h x)) (a, b) =
        (a + (l.map f).sum, b + (l.map g).sum - (l.map h).sum) := by
  intro l
  induction l with
  | nil => intro a b; simp
  | cons x l ih =>
    intro a b
    rw [List.foldl_cons, ih]
    refine Prod.ext (by simp [add_assoc]) ?_
    show b + g x - h x + _ - _ = _
    simp only [List.map_cons, List.sum_cons]
    abel

theorem sum_fin_get {α : Type} (l : List α) (f : α → ℚ) :
    ∑ k : Fin l.length, f (l.get k) = (l.map f).sum := by
  induction l with
  | nil => simp
  | cons x l ih =>
    show ∑ k : Fin (l.length + 1), f ((x :: l).get k) = _
    rw [Fin.sum_univ_succ]
    simp [ih]

theorem filter_map_sum {α : Type} (p : α → Bool) (f : α → ℚ) :
    ∀ l : List α, ((l.filter p).map f).sum =
      (l.map fun x => if p x then f x else 0).sum := by
  intro l
  induction l with
  | nil => rfl
  | cons x l ih =>
    by_cases hx : p x
    · simp [List.filter_cons, hx, ih]
    · simp [List.filter_cons, hx, ih]

theorem map_sum_ite_const {α : Type} {n : ℕ} (P : Prop) [Decidable P]
    (l : List α) (f : α → Matrix (Fin n) (Fin n) ℚ) :
    (l.map fun x => if P then f x else 0).sum = if P then (l.map f).sum else 0 := by
  by_cases hP : P
  · simp [hP]
  · simp only [hP, if_false]
    exact List.sum_eq_zero (by simp)

/-! ### Eigenvalue partition lemmas -/

theorem OCCDROP_pos : 0 < OCCDROP := by norm_num [OCCDROP]

theorem mem_posList_iff {n : ℕ} {e : Fin n → ℚ} (j : Fin n) :
    j ∈ posList n e ↔ OCCDROP < e j := by
  unfold posList
  rw [List.mem_filter]
  simp [List.mem_finRange]

theorem mem_negList_iff {n : ℕ} {e : Fin n → ℚ} (j : Fin n) :
    j ∈ negList n e ↔ e j < -OCCDROP := by
  unfold negList
  rw [List.mem_filter]
  simp [List.mem_finRange]

theorem not_pos_of_npos_zero {n : ℕ} {e : Fin n → ℚ} (h : npos n e = 0)
    (j : Fin n) : ¬OCCDROP < e j := by
  intro hj
  have hmem : j ∈ posList n e := (mem_posList_iff j).mpr hj
  rw [npos, List.length_eq_zero] at h
  rw [h] at hmem
  simp at hmem

theorem not_neg_of_nneg_zero {n : ℕ} {e : Fin n → ℚ} (h : nneg n e = 0)
    (j : Fin n) : ¬e j < -OCCDROP := by
  intro hj
  have hmem : j ∈ negList n e := (mem_negList_iff j).mpr hj
  rw [nneg, List.length_eq_zero] at h
  rw [h] at hmem
  simp at hmem

theorem cpos_outer_apply {n : ℕ} (e : Fin n → ℚ) (c : Matrix (Fin n) (Fin n) ℚ)
    (sq : ℚ → ℚ) (hsq : ∀ j, OCCDROP < e j → sq (e j) * sq (e j) = e j)
    (i i' : Fin n) :
    (cpos n e c sq * (cpos n e c sq).transpose) i i' =
      ∑ j, if OCCDROP < e j then e j * (c i j * c i' j) else 0 := by
  rw [Matrix.mul_apply]
  calc ∑ k : Fin (npos n e), cpos n e c sq i k * (cpos n e c sq).transpose k i'
      = ∑ k : Fin (posList n e).length,
          (fun j => c i j * sq (e j) * (c i' j * sq (e j))) ((posList n e).get k) := by
        apply Finset.sum_congr rfl
        intro k _
        simp [cpos, Matrix.transpose_apply]
    _ = ((posList n e).map fun j => c i j * sq (e j) * (c i' j * sq (e j))).sum :=
        sum_fin_get (posList n e) fun j => c i j * sq (e j) * (c i' j * sq (e j))
    _ = ((List.finRange n).map fun j =>
          if decide (OCCDROP < e j) then c i j * sq (e j) * (c i' j * sq (e j))
          else 0).sum := filter_map_sum _ _ _
    _ = ∑ j, if decide (OCCDROP < e j) then c i j * sq (e j) * (c i' j * sq (e j))
          else 0 := (Fin.sum_univ_def _).symm
    _ = ∑ j, if OCCDROP < e j then e j * (c i j * c i' j) else 0 := by
        apply Finset.sum_congr rfl
        intro j _
        by_cases hd : OCCDROP < e j
        · rw [if_pos (by simpa using hd), if_pos hd]
          linear_combination (c i j * c i' j) * hsq j hd
        · rw [if_neg (by simpa using hd), if_neg hd]

theorem cneg_outer_apply {n : ℕ} (e : Fin n → ℚ) (c : Matrix (Fin n) (Fin n) ℚ)
    (sq : ℚ → ℚ) (hsq : ∀ j, e j < -OCCDROP → sq (-e j) * sq (-e j) = -e j)
    (i i' : Fin n) :
    (cneg n e c sq * (cneg n e c sq).transpose) i i' =
      ∑ j, if e j < -OCCDROP then -e j * (c i j * c i' j) else 0 := by
  rw [Matrix.mul_apply]
  calc ∑ k : Fin (nneg n e), cneg n e c sq i k * (cneg n e c sq).transpose k i'
      = ∑ k : Fin (negList n e).length,
          (fun j => c i j * sq (-e j) * (c i' j * sq (-e j))) ((negList n e).get k) := by
        apply Finset.sum_congr rfl
        intro k _
        simp [cneg, Matrix.transpose_apply]
    _ = ((negList n e).map fun j => c i j * sq (-e j) * (c i' j * sq (-e j))).sum :=
        sum_fin_get (negList n e) fun j => c i j * sq (-e j) * (c i' j * sq (-e j))
    _ = ((List.finRange n).map fun j =>
          if decide (e j < -OCCDROP) then c i j * sq (-e j) * (c i' j * sq (-e j))
          else 0).sum := filter_map_sum _ _ _
    _ = ∑ j, if decide (e j < -OCCDROP) then c i j * sq (-e j) * (c i' j * sq (-e j))
          else 0 := (Fin.sum_univ_def _).symm
    _ = ∑ j, if e j < -OCCDROP then -e j * (c i j * c i' j) else 0 := by
        apply Finset.sum_congr rfl
        intro j _
        by_cases hd : e j < -OCCDROP
        · rw [if_pos (by simpa using hd), if_pos hd]
          linear_combination (c i j * c i' j) * hsq j hd
        · rw [if_neg (by simpa using hd), if_neg hd]

theorem split_reconstruct {n : ℕ} (e : Fin n → ℚ) (c : Matrix (Fin n) (Fin n) ℚ)
    (sq : ℚ → ℚ)
    (hdrop : ∀ j, -OCCDROP ≤ e j → e j ≤ OCCDROP → e j = 0)
    (hp : ∀ j, OCCDROP < e j → sq (e j) * sq (e j) = e j)
    (hn : ∀ j, e j < -OCCDROP → sq (-e j) * sq (-e j) = -e j) :
    cpos n e c sq * (cpos n e c sq).transpose
      - cneg n e c sq * (cneg n e c sq).transpose =
      c * Matrix.diagonal e * c.transpose := by
  ext i i'
  rw [Matrix.sub_apply, cpos_outer_apply e c sq hp i i', cneg_outer_apply e c sq hn i i',
    ← Finset.sum_sub_distrib]
  have hrhs : (c * Matrix.diagonal e * c.transpose) i i' = ∑ j, c i j * e j * c i' j := by
    rw [Matrix.mul_apply]
    apply Finset.sum_congr rfl
    intro j _
    rw [Matrix.mul_diagonal, Matrix.transpose_apply]
  rw [hrhs]
  apply Finset.sum_congr rfl
  intro j _
  by_cases hpj : OCCDROP < e j
  · have hnj : ¬e j < -OCCDROP := by
      have := OCCDROP_pos
      intro hc; linarith
    rw [if_pos hpj, if_neg hnj]
    ring
  · by_cases hnj : e j < -OCCDROP
    · rw [if_neg hpj, if_pos hnj]
      ring
    · have h0 : e j = 0 := hdrop j (by linarith [not_lt.mp hnj]) (not_lt.mp hpj)
      rw [if_neg hpj, if_neg hnj, h0]
      ring

/-! ### Shape of the two contraction paths -/

theorem fjkG_eq (n naux : ℕ) (cderi : ℕ → ℕ → ℚ) (dm : Matrix (Fin n) (Fin n) ℚ) :
    fjkG n naux cderi dm = (jTotal n naux cderi dm, kTotal n naux cderi dm) := by
  have h := foldl_pair_add (fun b : ℕ × ℕ => jContrib n cderi (dmtrilOf dm) b.1 b.2)
    (fun b : ℕ × ℕ => kHalfContrib n cderi dm b.1 b.2) (prange 0 naux BLOCKDIM) 0 0
  simp only [fjkG]
  rw [h, jTotal, kTotal]
  simp

theorem fjk_sym_eq (n naux : ℕ) (cderi : ℕ → ℕ → ℚ) (sq : ℚ → ℚ)
    (dm : Matrix (Fin n) (Fin n) ℚ) (e : Fin n → ℚ) (c : Matrix (Fin n) (Fin n) ℚ)
    (hguard : 0 < npos n e + nneg n e) :
    fjk_sym n naux cderi sq dm e c =
      (jTotal n naux cderi dm,
        (if 0 < npos n e then
          kTotal n naux cderi (cpos n e c sq * (cpos n e c sq).transpose)
        else 0)
          - (if 0 < nneg n e then
            kTotal n naux cderi (cneg n e c sq * (cneg n e c sq).transpose)
          else 0)) := by
  have h := foldl_pair_add_sub
    (fun b : ℕ × ℕ => jContrib n cderi (dmtrilOf dm) b.1 b.2)
    (fun b : ℕ × ℕ => if 0 < npos n e then
      kHalfContrib n cderi (cpos n e c sq * (cpos n e c sq).transpose) b.1 b.2
      else 0)
    (fun b : ℕ × ℕ => if 0 < nneg n e then
      kHalfContrib n cderi (cneg n e c sq * (cneg n e c sq).transpose) b.1 b.2
      else 0)
    (prange 0 naux BLOCKDIM) 0 0
  simp only [fjk_sym]
  rw [if_pos hguard, h, map_sum_ite_const, map_sum_ite_const, jTotal, kTotal, kTotal]
  simp

theorem cpos_outer_of_npos_zero {n : ℕ} (e : Fin n → ℚ)
    (c : Matrix (Fin n) (Fin n) ℚ) (sq : ℚ → ℚ) (h : npos n e = 0) :
    cpos n e c sq * (cpos n e c sq).transpose = 0 := by
  ext i i'
  rw [Matrix.mul_apply, Matrix.zero_apply]
  apply Finset.sum_eq_zero
  intro k _
  exact absurd k.2 (by omega)

theorem cneg_outer_of_nneg_zero {n : ℕ} (e : Fin n → ℚ)
    (c : Matrix (Fin n) (Fin n) ℚ) (sq : ℚ → ℚ) (h : nneg n e = 0) :
    cneg n e c sq * (cneg n e c sq).transpose = 0 := by
  ext i i'
  rw [Matrix.mul_apply, Matrix.zero_apply]
  apply Finset.sum_eq_zero
  intro k _
  exact absurd k.2 (by omega)

theorem kHalfContrib_zero_mid (n : ℕ) (cderi : ℕ → ℕ → ℚ) (b0 b1 : ℕ) :
    kHalfContrib n cderi 0 b0 b1 = 0 := by
  unfold kHalfContrib
  apply Finset.sum_eq_zero
  intro p _
  rw [Matrix.mul_zero, Matrix.zero_mul]

theorem kTotal_zero_mid (n naux : ℕ) (cderi : ℕ → ℕ → ℚ) :
    kTotal n naux cderi 0 = 0 := by
  unfold kTotal
  apply List.sum_eq_zero
  intro x hx
  rw [List.mem_map] at hx
  obtain ⟨b, _, rfl⟩ := hx
  exact kHalfContrib_zero_mid n cderi b.1 b.2

/-! ### Zero propagation -/

theorem packTrilN_all_zero {n : ℕ} {f : ℕ → ℕ → ℚ} (hf : ∀ i j, f i j = 0) :
    ∀ x ∈ packTrilN n f, x = 0 := by
  intro x hx
  unfold packTrilN at hx
  rw [List.mem_flatMap] at hx
  obtain ⟨i, _, hx⟩ := hx
  rw [List.mem_map] at hx
  obtain ⟨j, _, rfl⟩ := hx
  exact hf i j

theorem getD_zero_of_all_zero {l : List ℚ} (h : ∀ x ∈ l, x = 0) (k : ℕ) :
    l.getD k 0 = 0 := by
  rw [List.getD_eq_getD_get?]
  cases hv : l.get? k with
  | none => rfl
  | some v =>
    have := h v (List.get?_mem hv)
    simp [this]

theorem halveDiag_all_zero {m : ℕ} {l : List ℚ} (h : ∀ x ∈ l, x = 0) :
    ∀ x ∈ halveDiag m l, x = 0 := by
  induction m with
  | zero => exact h
  | succ m' ih =>
    intro x hx
    rw [halveDiag_succ] at hx
    rcases List.mem_or_eq_of_mem_set hx with hx | hx
    · exact ih x hx
    · rw [hx, getD_zero_of_all_zero ih]
      norm_num

theorem dmtrilOf_zero_entries {n : ℕ} :
    ∀ x ∈ dmtrilOf (0 : Matrix (Fin n) (Fin n) ℚ), x = 0 := by
  unfold dmtrilOf packTril
  apply halveDiag_all_zero
  apply packTrilN_all_zero
  intro i j
  split
  · simp
  · rfl

theorem jContrib_zero_entries {n : ℕ} (cderi : ℕ → ℕ → ℚ) {dmtril : List ℚ}
    (h : ∀ x ∈ dmtril, x = 0) (b0 b1 : ℕ) :
    jContrib n cderi dmtril b0 b1 = 0 := by
  have hz : ∀ k : ℕ, dmtril[k]?.getD 0 = 0 := by
    intro k
    have hk := getD_zero_of_all_zero h k
    rwa [List.getD_eq_getElem?_getD] at hk
  unfold jContrib jbuf trilDot
  ext i j
  rw [unpackTrilF, Matrix.of_apply, Matrix.zero_apply]
  split <;> simp [hz]

theorem jTotal_zero (n naux : ℕ) (cderi : ℕ → ℕ → ℚ) :
    jTotal n naux cderi (0 : Matrix (Fin n) (Fin n) ℚ) = 0 := by
  unfold jTotal
  apply List.sum_eq_zero
  intro x hx
  rw [List.mem_map] at hx
  obtain ⟨b, _, rfl⟩ := hx
  exact jContrib_zero_entries cderi dmtrilOf_zero_entries b.1 b.2

/-! ### The checked general-path worker -/

theorem fjkG_checked_eq_some (nao naux : ℕ) (cderi : ℕ → ℕ → ℚ)
    (dm : Matrix (Fin nao) (Fin nao) ℚ) :
    fjkG_checked nao naux cderi nao dm = some (fjkG nao naux cderi dm) := by
  have hcond : ∀ i ∈ List.range nao,
      tril_index i i < (packTril (dm + dm.transpose)).length := by
    intro i hi
    rw [List.mem_range] at hi
    unfold packTril
    rw [packTrilN_length]
    exact lt_of_lt_of_le (tril_lt_npair le_rfl) (npair_mono hi)
  unfold fjkG_checked
  rw [if_pos hcond]

theorem fjkG_checked_eq_none {nao m : ℕ} (naux : ℕ) (cderi : ℕ → ℕ → ℚ)
    (dm : Matrix (Fin m) (Fin m) ℚ) (hm : m < nao) :
    fjkG_checked nao naux cderi m dm = none := by
  unfold fjkG_checked
  rw [if_neg]
  intro hall
  have h1 := hall m (List.mem_range.mpr hm)
  unfold packTril at h1
  rw [packTrilN_length, tril_eq] at h1
  omega

theorem list_map_sum_sub {α : Type} {n : ℕ} (l : List α)
    (f g : α → Matrix (Fin n) (Fin n) ℚ) :
    (l.map fun x => f x - g x).sum = (l.map f).sum - (l.map g).sum := by
  induction l with
  | nil => simp
  | cons x l ih =>
    simp only [List.map_cons, List.sum_cons, ih]
    abel

theorem kHalfContrib_sub (n : ℕ) (cderi : ℕ → ℕ → ℚ)
    (A B : Matrix (Fin n) (Fin n) ℚ) (b0 b1 : ℕ) :
    kHalfContrib n cderi (A - B) b0 b1 =
      kHalfContrib n cderi A b0 b1 - kHalfContrib n cderi B b0 b1 := by
  unfold kHalfContrib
  rw [← Finset.sum_sub_distrib]
  apply Finset.sum_congr rfl
  intro p _
  rw [Matrix.mul_sub, Matrix.sub_mul]

theorem kTotal_sub (n naux : ℕ) (cderi : ℕ → ℕ → ℚ)
    (A B : Matrix (Fin n) (Fin n) ℚ) :
    kTotal n naux cderi (A - B) = kTotal n naux cderi A - kTotal n naux cderi B := by
  unfold kTotal
  rw [← list_map_sum_sub]
  congr 1
  apply List.map_congr_left
  intro b _
  exact kHalfContrib_sub n cderi A B b.1 b.2

theorem kTotal_pos_ite (n naux : ℕ) (cderi : ℕ → ℕ → ℚ) (e : Fin n → ℚ)
    (c : Matrix (Fin n) (Fin n) ℚ) (sq : ℚ → ℚ) :
    (if 0 < npos n e then
      kTotal n naux cderi (cpos n e c sq * (cpos n e c sq).transpose)
    else 0) = kTotal n naux cderi (cpos n e c sq * (cpos n e c sq).transpose) := by
  rcases Nat.eq_zero_or_pos (npos n e) with hp | hp
  · rw [if_neg (by omega), cpos_outer_of_npos_zero e c sq hp, kTotal_zero_mid]
  · rw [if_pos hp]

theorem kTotal_neg_ite (n naux : ℕ) (cderi : ℕ → ℕ → ℚ) (e : Fin n → ℚ)
    (c : Matrix (Fin n) (Fin n) ℚ) (sq : ℚ → ℚ) :
    (if 0 < nneg n e then
      kTotal n naux cderi (cneg n e c sq * (cneg n e c sq).transpose)
    else 0) = kTotal n naux cderi (cneg n e c sq * (cneg n e c sq).transpose) := by
  rcases Nat.eq_zero_or_pos (nneg n e) with hp | hp
  · rw [if_neg (by omega), cneg_outer_of_nneg_zero e c sq hp, kTotal_zero_mid]
  · rw [if_pos hp]

theorem runBatch_cons_some (nao naux : ℕ) (cderi : ℕ → ℕ → ℚ) (m : ℕ)
    (dmm : Matrix (Fin m) (Fin m) ℚ)
    (rest : List ((m' : ℕ) × Matrix (Fin m') (Fin m') ℚ))
    (jk : Matrix (Fin m) (Fin m) ℚ × Matrix (Fin m) (Fin m) ℚ)
    (h : fjkG_checked nao naux cderi m dmm = some jk) :
    runBatch nao naux cderi (⟨m, dmm⟩ :: rest) =
      ((runBatch nao naux cderi rest).1.map fun l => ⟨m, jk⟩ :: l,
        (prange 0 naux BLOCKDIM).length + (runBatch nao naux cderi rest).2) := by
  simp only [runBatch, h]

theorem runBatch_cons_none (nao naux : ℕ) (cderi : ℕ → ℕ → ℚ) (m : ℕ)
    (dmm : Matrix (Fin m) (Fin m) ℚ)
    (rest : List ((m' : ℕ) × Matrix (Fin m') (Fin m') ℚ))
    (h : fjkG_checked nao naux cderi m dmm = none) :
    runBatch nao naux cderi (⟨m, dmm⟩ :: rest) = (none, 0) := by
  simp only [runBatch, h]

/-! ### The claims -/

/-- Claim C8 (confirmed): for every positive step, the block iterator yields
contiguous, non-overlapping half-open intervals whose concatenation is
exactly the interval of points [start, stop) (covering it exactly once),
every yielded block ends at min(b0+step, stop) and is nonempty of length at
most step (so a range not divisible by step ends in one shorter block), and
nothing is yielded when start ≥ stop. -/
theorem claim8 (b stop step : ℕ) (hs : 0 < step) :
    ((prange b stop step).flatMap fun p => List.range' p.1 (p.2 - p.1)) =
        List.range' b (stop - b)
      ∧ (∀ p ∈ prange b stop step,
          p.2 = min (p.1 + step) stop ∧ p.1 < p.2 ∧ p.2 - p.1 ≤ step)
      ∧ (stop ≤ b → prange b stop step = []) :=
  ⟨prange_flatten hs b stop,
    prange_mem_shape hs (stop - b) b stop le_rfl,
    fun h => prange_eq_nil h⟩

theorem claim8_witness :
    0 < 2
      ∧ ((prange 0 5 2).flatMap fun p => List.range' p.1 (p.2 - p.1)) =
          List.range' 0 (5 - 0) :=
  ⟨by norm_num, (claim8 0 5 2 (by norm_num)).1⟩

/-- Claim C2 (confirmed): the auxiliary factor is built and kept fully in
memory exactly when nao(nao+1)/2 · naoaux · 8 bytes is strictly less than the
caller-supplied memory budget expressed in bytes (the source compares against
max_memory · 10⁶, max_memory being the budget in megabytes); otherwise it is
built into the external temporary store. -/
theorem claim2 (nao naoaux : ℕ) (max_memory : ℚ) :
    (chooseStorage nao naoaux max_memory = CholeskyStorage.inMemory ↔
        ((nao * (nao + 1) / 2 * naoaux * 8 : ℕ) : ℚ) < max_memory * 1000000)
      ∧ (chooseStorage nao naoaux max_memory = CholeskyStorage.outOfCore ↔
        ¬((nao * (nao + 1) / 2 * naoaux * 8 : ℕ) : ℚ) < max_memory * 1000000) := by
  unfold chooseStorage cderiBytes
  by_cases h : ((nao * (nao + 1) / 2 * naoaux * 8 : ℕ) : ℚ) < max_memory * 1000000
  · rw [if_pos h]
    exact ⟨⟨fun _ => h, fun _ => rfl⟩,
      ⟨fun hc => CholeskyStorage.noConfusion hc, fun hn => absurd h hn⟩⟩
  · rw [if_neg h]
    exact ⟨⟨fun hc => CholeskyStorage.noConfusion hc, fun hcond => absurd hcond h⟩,
      ⟨fun _ => h, fun _ => rfl⟩⟩

/-- Claim C3 (confirmed): the symmetric path partitions the generalized
eigendecomposition output with strict inequalities against OCCDROP = 1e-12 —
the positive set is exactly the eigenvalues above OCCDROP, the negative set
exactly those below -OCCDROP, an eigenvalue of magnitude exactly OCCDROP is
dropped from both — and the columns of cpos (cneg) are the selected
eigenvector columns of c scaled by the square root of the eigenvalue (of its
negation), the square root being the external numpy.sqrt oracle sq. -/
theorem claim3 (n : ℕ) (e : Fin n → ℚ) (c : Matrix (Fin n) (Fin n) ℚ)
    (sq : ℚ → ℚ) :
    (∀ j : Fin n, j ∈ posList n e ↔ OCCDROP < e j)
      ∧ (∀ j : Fin n, j ∈ negList n e ↔ e j < -OCCDROP)
      ∧ (∀ j : Fin n, e j = OCCDROP ∨ e j = -OCCDROP →
          j ∉ posList n e ∧ j ∉ negList n e)
      ∧ (∀ k : Fin (npos n e), OCCDROP < e ((posList n e).get ⟨k.1, k.2⟩) ∧
          ∀ i : Fin n, cpos n e c sq i k =
            c i ((posList n e).get ⟨k.1, k.2⟩) *
              sq (e ((posList n e).get ⟨k.1, k.2⟩)))
      ∧ (∀ k : Fin (nneg n e), e ((negList n e).get ⟨k.1, k.2⟩) < -OCCDROP ∧
          ∀ i : Fin n, cneg n e c sq i k =
            c i ((negList n e).get ⟨k.1, k.2⟩) *
              sq (-e ((negList n e).get ⟨k.1, k.2⟩))) := by
  have hO := OCCDROP_pos
  refine ⟨fun j => mem_posList_iff j, fun j => mem_negList_iff j, ?_, ?_, ?_⟩
  · intro j hj
    refine ⟨fun hmem => ?_, fun hmem => ?_⟩
    · have h1 := (mem_posList_iff j).mp hmem
      rcases hj with h | h <;> rw [h] at h1 <;> linarith
    · have h1 := (mem_negList_iff j).mp hmem
      rcases hj with h | h <;> rw [h] at h1 <;> linarith
  · intro k
    exact ⟨(mem_posList_iff _).mp (List.get_mem _ _ _), fun i => rfl⟩
  · intro k
    exact ⟨(mem_negList_iff _).mp (List.get_mem _ _ _), fun i => rfl⟩

/-- Entry view of dmtrilOf: the packed symmetrized density holds
(dm + dmᵀ)(i, j) at flat index i(i+1)/2 + j, halved on the diagonal. -/
theorem dmtrilOf_get? (n : ℕ) (dm : Matrix (Fin n) (Fin n) ℚ) (i j : ℕ)
    (hj : j ≤ i) (hi : i < n) :
    (dmtrilOf dm).get? (tril_index i j) =
      some ((dm + dm.transpose) ⟨i, hi⟩ ⟨j, lt_of_le_of_lt hj hi⟩ *
        (if i = j then 1 / 2 else 1)) := by
  have hpack : (packTril (dm + dm.transpose)).get? (tril_index i j) =
      some ((dm + dm.transpose) ⟨i, hi⟩ ⟨j, lt_of_le_of_lt hj hi⟩) := by
    unfold packTril
    rw [packTrilN_get? n _ hj hi, dif_pos ⟨hi, lt_of_le_of_lt hj hi⟩]
  unfold dmtrilOf
  rcases eq_or_ne i j with hij | hij
  · subst hij
    rw [halveDiag_get?_diag n _ hi, hpack]
    simp
  · have hji : j < i := by omega
    rw [halveDiag_get?_ne n _ (fun i' hi' hEq => ?_), hpack, if_neg hij, mul_one]
    have := tril_inj hj le_rfl hEq
    omega

/-- Claim C6 (confirmed): on both paths the packed density dmtril is the
packed triangular form of dm + dmᵀ, the entry (i, j), j ≤ i, sitting at flat
index i(i+1)/2 + j, with the diagonal entry at packed index i(i+1)/2 + i
multiplied by 0.5. -/
theorem claim6 (n : ℕ) (dm : Matrix (Fin n) (Fin n) ℚ) (i j : ℕ)
    (hj : j ≤ i) (hi : i < n) :
    (dmtrilOf dm).get? (tril_index i j) =
      some ((dm + dm.transpose) ⟨i, hi⟩ ⟨j, lt_of_le_of_lt hj hi⟩ *
        (if i = j then 1 / 2 else 1)) :=
  dmtrilOf_get? n dm i j hj hi

theorem claim6_witness :
    ((1 : ℕ) ≤ 1 ∧ (1 : ℕ) < 2)
      ∧ (dmtrilOf (Matrix.of fun _ _ => (1 : ℚ) :
            Matrix (Fin 2) (Fin 2) ℚ)).get? (tril_index 1 1) =
          some (((Matrix.of fun _ _ => (1 : ℚ) : Matrix (Fin 2) (Fin 2) ℚ) +
            (Matrix.of fun _ _ => (1 : ℚ) :
              Matrix (Fin 2) (Fin 2) ℚ).transpose) ⟨1, by norm_num⟩
            ⟨1, by norm_num⟩ * (if (1 : ℕ) = 1 then 1 / 2 else 1)) :=
  ⟨⟨le_rfl, by norm_num⟩, claim6 2 _ 1 1 le_rfl (by norm_num)⟩

/-- Claim C5 (confirmed): a batched call processes the densities
independently and in order — its i-th stacked J (and K) is exactly the J (K)
of the per-matrix worker on the i-th density, which is what the independent
single-matrix call returns — and a single 2-D density input yields a single
(J, K) pair rather than a stacked batch. -/
theorem claim5 (n naux : ℕ) (cderi : ℕ → ℕ → ℚ) (sq : ℚ → ℚ)
    (eigh : Matrix (Fin n) (Fin n) ℚ → (Fin n → ℚ) × Matrix (Fin n) (Fin n) ℚ)
    (hermi : ℕ) (dms : List (Matrix (Fin n) (Fin n) ℚ)) (i : ℕ)
    (hi : i < dms.length) :
    get_jk n naux cderi sq eigh hermi (DmsInput.batch dms) =
        JkOutput.batch (dms.map fun dm => (fjk n naux cderi sq eigh hermi dm).1)
          (dms.map fun dm => (fjk n naux cderi sq eigh hermi dm).2)
      ∧ (∀ dm, get_jk n naux cderi sq eigh hermi (DmsInput.single dm) =
          JkOutput.single (fjk n naux cderi sq eigh hermi dm))
      ∧ (dms.map fun dm => (fjk n naux cderi sq eigh hermi dm).1).get? i =
          some ((fjk n naux cderi sq eigh hermi (dms.get ⟨i, hi⟩)).1)
      ∧ (dms.map fun dm => (fjk n naux cderi sq eigh hermi dm).2).get? i =
          some ((fjk n naux cderi sq eigh hermi (dms.get ⟨i, hi⟩)).2) := by
  refine ⟨rfl, fun dm => rfl, ?_, ?_⟩
  · rw [List.get?_map, List.get?_eq_get hi]
    rfl
  · rw [List.get?_map, List.get?_eq_get hi]
    rfl

theorem claim5_witness :
    0 < ([(0 : Matrix (Fin 1) (Fin 1) ℚ)]).length
      ∧ ([(0 : Matrix (Fin 1) (Fin 1) ℚ)].map fun dm =>
          (fjk 1 1 (fun _ _ => 1) (fun x => x)
            (fun _ => (fun _ => 0, 0)) 1 dm).1).get? 0 =
          some ((fjk 1 1 (fun _ _ => 1) (fun x => x)
            (fun _ => (fun _ => 0, 0)) 1
            ([(0 : Matrix (Fin 1) (Fin 1) ℚ)].get ⟨0, by norm_num⟩)).1) :=
  ⟨by norm_num,
    (claim5 1 1 (fun _ _ => 1) (fun x => x) (fun _ => (fun _ => 0, 0)) 1
      [0] 0 (by norm_num)).2.2.1⟩

/-- Claim C9 (confirmed): a zero density matrix produces zero J and zero K on
both contraction paths (on the symmetric path the eigensolver necessarily
returns all-zero eigenvalues for the zero matrix, taken as the hypothesis on
the oracle output). -/
theorem claim9 (n naux : ℕ) (cderi : ℕ → ℕ → ℚ) (sq : ℚ → ℚ)
    (e : Fin n → ℚ) (c : Matrix (Fin n) (Fin n) ℚ) (he : ∀ j, e j = 0) :
    fjk_sym n naux cderi sq 0 e c = (0, 0)
      ∧ fjkG n naux cderi (0 : Matrix (Fin n) (Fin n) ℚ) = (0, 0) := by
  constructor
  · have hp : npos n e = 0 := by
      unfold npos posList
      rw [List.length_eq_zero, List.filter_eq_nil_iff]
      intro j _
      rw [he j]
      simp only [decide_eq_true_eq]
      norm_num [OCCDROP]
    have hn : nneg n e = 0 := by
      unfold nneg negList
      rw [List.length_eq_zero, List.filter_eq_nil_iff]
      intro j _
      rw [he j]
      simp only [decide_eq_true_eq]
      norm_num [OCCDROP]
    unfold fjk_sym
    rw [if_neg (by omega)]
  · rw [fjkG_eq, jTotal_zero, kTotal_zero_mid]

theorem claim9_witness :
    (∀ j : Fin 1, (fun _ : Fin 1 => (0 : ℚ)) j = 0)
      ∧ fjk_sym 1 1 (fun _ _ => 1) (fun x => x) 0 (fun _ => 0) 0 = (0, 0) :=
  ⟨fun _ => rfl,
    (claim9 1 1 (fun _ _ => 1) (fun x => x) (fun _ => 0) 0 fun _ => rfl).1⟩

/-- Claim C1 (corrected): provided at least one eigenvalue survives the
threshold (the source's outer guard `sum(pos)+sum(neg) > 0` holds), the
symmetric path accumulates the unpacked Coulomb contribution
eri1·dmtril·eri1 of every contiguous auxiliary block into J for every input
density, and an empty positive (negative) set only skips the corresponding
exchange branch, which is a no-op: K still equals the full positive sum
minus the full negative sum, skipped branches contributing zero.  When both
sets are empty the guard skips the whole block loop, J accumulation
included (see the counterexample). -/
theorem claim1 (n naux : ℕ) (cderi : ℕ → ℕ → ℚ) (sq : ℚ → ℚ)
    (dm : Matrix (Fin n) (Fin n) ℚ) (e : Fin n → ℚ)
    (c : Matrix (Fin n) (Fin n) ℚ) (hguard : 0 < npos n e + nneg n e) :
    (fjk_sym n naux cderi sq dm e c).1 = jTotal n naux cderi dm
      ∧ (fjk_sym n naux cderi sq dm e c).2 =
        kTotal n naux cderi (cpos n e c sq * (cpos n e c sq).transpose)
          - kTotal n naux cderi (cneg n e c sq * (cneg n e c sq).transpose) := by
  rw [fjk_sym_eq n naux cderi sq dm e c hguard]
  rw [kTotal_pos_ite n naux cderi e c sq, kTotal_neg_ite n naux cderi e c sq]
  exact ⟨rfl, rfl⟩

theorem claim1_witness :
    0 < npos 1 (fun _ => (1 : ℚ)) + nneg 1 (fun _ => (1 : ℚ))
      ∧ (fjk_sym 1 1 (fun _ _ => 1) (fun x => x) (Matrix.of fun _ _ => (1 : ℚ))
          (fun _ => 1) (Matrix.of fun _ _ => 1)).1 =
        jTotal 1 1 (fun _ _ => 1) (Matrix.of fun _ _ => (1 : ℚ)) := by
  have hmem : (0 : Fin 1) ∈ posList 1 (fun _ => (1 : ℚ)) :=
    (mem_posList_iff _).mpr (by norm_num [OCCDROP])
  have h1 : 0 < npos 1 (fun _ => (1 : ℚ)) :=
    List.length_pos.mpr (List.ne_nil_of_mem hmem)
  have hguard : 0 < npos 1 (fun _ => (1 : ℚ)) + nneg 1 (fun _ => (1 : ℚ)) := by omega
  exact ⟨hguard,
    (claim1 1 1 (fun _ _ => 1) (fun x => x) (Matrix.of fun _ _ => (1 : ℚ))
      (fun _ => 1) (Matrix.of fun _ _ => 1) hguard).1⟩

/-- Claim C1 counterexample: a consistent symmetric-path input (one basis
function, one auxiliary function, unit factor, dm = [[1e-13]] with
generalized eigenvalue 1e-13 and eigenvector [1], so dm = c·diag(e)·cᵀ
holds exactly) whose only eigenvalue is below OCCDROP in magnitude: both
eigenvalue sets are empty, the outer guard fails, and the returned J is the
zero matrix even though the blockwise Coulomb contributions sum to a
nonzero matrix — so an empty positive set together with an empty negative
set does suppress the J accumulation, refuting the claim as stated. -/
theorem claim1_counterexample :
    (Matrix.of fun _ _ => (1 / 10000000000000 : ℚ)) =
        (Matrix.of fun _ _ => (1 : ℚ)) *
          Matrix.diagonal (fun _ : Fin 1 => (1 / 10000000000000 : ℚ)) *
          (Matrix.of fun _ _ => (1 : ℚ)).transpose
      ∧ (fjk_sym 1 1 (fun _ _ => 1) (fun _ => 0)
          (Matrix.of fun _ _ => (1 / 10000000000000 : ℚ))
          (fun _ => 1 / 10000000000000) (Matrix.of fun _ _ => 1)).1 = 0
      ∧ (fjk_sym 1 1 (fun _ _ => 1) (fun _ => 0)
          (Matrix.of fun _ _ => (1 / 10000000000000 : ℚ))
          (fun _ => 1 / 10000000000000) (Matrix.of fun _ _ => 1)).1 ≠
        jTotal 1 1 (fun _ _ => 1)
          (Matrix.of fun _ _ => (1 / 10000000000000 : ℚ)) := by
  have hdm : (Matrix.of fun _ _ => (1 / 10000000000000 : ℚ)) =
      (Matrix.of fun _ _ => (1 : ℚ)) *
        Matrix.diagonal (fun _ : Fin 1 => (1 / 10000000000000 : ℚ)) *
        (Matrix.of fun _ _ => (1 : ℚ)).transpose := by
    ext i j
    simp [Matrix.mul_apply, Matrix.diagonal_apply, Fin.sum_univ_one]
  have hp : npos 1 (fun _ : Fin 1 => (1 / 10000000000000 : ℚ)) = 0 := by
    show (posList 1 _).length = 0
    rw [List.length_eq_zero]
    unfold posList
    rw [List.filter_eq_nil_iff]
    intro j _
    simp only [decide_eq_true_eq]
    norm_num [OCCDROP]
  have hn : nneg 1 (fun _ : Fin 1 => (1 / 10000000000000 : ℚ)) = 0 := by
    show (negList 1 _).length = 0
    rw [List.length_eq_zero]
    unfold negList
    rw [List.filter_eq_nil_iff]
    intro j _
    simp only [decide_eq_true_eq]
    norm_num [OCCDROP]
  have hJ : (fjk_sym 1 1 (fun _ _ => 1) (fun _ => 0)
      (Matrix.of fun _ _ => (1 / 10000000000000 : ℚ))
      (fun _ => 1 / 10000000000000) (Matrix.of fun _ _ => 1)).1 = 0 := by
    unfold fjk_sym
    rw [if_neg (by omega)]
  have hval : (dmtrilOf (Matrix.of fun _ _ => (1 / 10000000000000 : ℚ) :
      Matrix (Fin 1) (Fin 1) ℚ)).getD 0 0 = 1 / 10000000000000 := by
    have hget := dmtrilOf_get? 1
      (Matrix.of fun _ _ => (1 / 10000000000000 : ℚ)) 0 0 le_rfl (by norm_num)
    rw [List.getD_eq_getD_get?, show (0 : ℕ) = tril_index 0 0 from rfl, hget]
    simp
    norm_num
  have hJT : jTotal 1 1 (fun _ _ => 1)
      (Matrix.of fun _ _ => (1 / 10000000000000 : ℚ)) ≠ 0 := by
    intro h0
    have hentry := congrFun (congrFun h0 0) 0
    rw [Matrix.zero_apply] at hentry
    rw [jTotal, show prange 0 1 BLOCKDIM = [(0, 1)] from rfl] at hentry
    simp only [List.map_cons, List.map_nil, List.sum_cons, List.sum_nil,
      add_zero] at hentry
    rw [jContrib, unpackTrilF] at hentry
    simp only [Matrix.of_apply] at hentry
    rw [if_pos (by norm_num)] at hentry
    rw [jbuf] at hentry
    rw [← Finset.range_eq_Ico, Finset.sum_range_one] at hentry
    rw [trilDot, show npair 1 = 1 from rfl, Finset.sum_range_one] at hentry
    rw [hval] at hentry
    norm_num at hentry
  exact ⟨hdm, hJ, by rw [hJ]; exact Ne.symm hJT⟩

/-- Claim C4 (confirmed): for a symmetric density given by its generalized
eigendecomposition (the LAPACK itype=2 contract: dm = c·diag(e)·cᵀ with
S-orthonormal columns), with the numerical drop exact (eigenvalues inside
[-OCCDROP, OCCDROP] are exactly zero, the exact-arithmetic reading of
"up to numerical tolerance") and sq a genuine square root on the used
values, the exchange matrix of the general contraction path equals the
exchange matrix of the symmetric path on the same density. -/
theorem claim4 (n naux : ℕ) (cderi : ℕ → ℕ → ℚ) (sq : ℚ → ℚ)
    (dm : Matrix (Fin n) (Fin n) ℚ) (e : Fin n → ℚ)
    (c : Matrix (Fin n) (Fin n) ℚ)
    (hdm : dm = c * Matrix.diagonal e * c.transpose)
    (hdrop : ∀ j, -OCCDROP ≤ e j → e j ≤ OCCDROP → e j = 0)
    (hp : ∀ j, OCCDROP < e j → sq (e j) * sq (e j) = e j)
    (hn : ∀ j, e j < -OCCDROP → sq (-e j) * sq (-e j) = -e j) :
    (fjkG n naux cderi dm).2 = (fjk_sym n naux cderi sq dm e c).2 := by
  rcases Nat.eq_zero_or_pos (npos n e + nneg n e) with hz | hguard
  · have hp0 : npos n e = 0 := by omega
    have hn0 : nneg n e = 0 := by omega
    have he : ∀ j, e j = 0 := by
      intro j
      have h1 := not_pos_of_npos_zero hp0 j
      have h2 := not_neg_of_nneg_zero hn0 j
      exact hdrop j (by linarith [not_lt.mp h2]) (not_lt.mp h1)
    have hdm0 : dm = 0 := by
      rw [hdm, funext he]
      simp
    rw [hdm0, fjkG_eq, kTotal_zero_mid]
    unfold fjk_sym
    rw [if_neg (by omega)]
  · rw [fjkG_eq, fjk_sym_eq n naux cderi sq dm e c hguard]
    show kTotal n naux cderi dm = _
    rw [kTotal_pos_ite n naux cderi e c sq, kTotal_neg_ite n naux cderi e c sq,
      ← kTotal_sub, split_reconstruct e c sq hdrop hp hn, ← hdm]

theorem claim4_witness :
    (Matrix.of fun _ _ => (1 : ℚ)) =
        (Matrix.of fun _ _ => (1 : ℚ)) *
          Matrix.diagonal (fun _ : Fin 1 => (1 : ℚ)) *
          (Matrix.of fun _ _ => (1 : ℚ)).transpose
      ∧ (fjkG 1 1 (fun _ _ => 1) (Matrix.of fun _ _ => (1 : ℚ))).2 =
        (fjk_sym 1 1 (fun _ _ => 1) (fun x => x) (Matrix.of fun _ _ => (1 : ℚ))
          (fun _ => 1) (Matrix.of fun _ _ => 1)).2 := by
  have hdm : (Matrix.of fun _ _ => (1 : ℚ)) =
      (Matrix.of fun _ _ => (1 : ℚ)) *
        Matrix.diagonal (fun _ : Fin 1 => (1 : ℚ)) *
        (Matrix.of fun _ _ => (1 : ℚ)).transpose := by
    ext i j
    simp [Matrix.mul_apply, Matrix.diagonal_apply, Fin.sum_univ_one]
  exact ⟨hdm,
    claim4 1 1 (fun _ _ => 1) (fun x => x) (Matrix.of fun _ _ => (1 : ℚ))
      (fun _ => 1) (Matrix.of fun _ _ => 1) hdm
      (fun j h1 h2 => by norm_num [OCCDROP] at h2)
      (fun j hj => by norm_num)
      (fun j hj => by norm_num [OCCDROP] at hj)⟩

/-- Frame property of the in-place halving over the store: arrays other than
the target are untouched. -/
theorem halveDiagStore_frame (nao tid : ℕ) (st : Store) {a : ℕ} (ha : a ≠ tid) :
    (halveDiagStore nao tid st).arrays a = st.arrays a := by
  unfold halveDiagStore
  generalize List.range nao = l
  induction l generalizing st with
  | nil => rfl
  | cons x l ih =>
    rw [List.foldl_cons, ih]
    simp [ha]

/-- Claim C10 (confirmed): the density preprocessing never mutates the
caller's arrays: the packed density is a freshly allocated array and the
in-place diagonal halving writes only to it, so every array other than the
fresh one — in particular the input density at any live identifier — is left
bit-for-bit unchanged. -/
theorem claim10 (n : ℕ) (st : Store) (dmId : ℕ) (h : dmId < st.next) :
    (prepareDmtril n st dmId).2.arrays dmId = st.arrays dmId
      ∧ ∀ a, a ≠ st.next → (prepareDmtril n st dmId).2.arrays a = st.arrays a := by
  have hframe : ∀ a, a ≠ st.next →
      (prepareDmtril n st dmId).2.arrays a = st.arrays a := by
    intro a ha
    show (halveDiagStore n st.next
      (st.alloc (packTrilN n fun i j =>
        (st.arrays dmId).getD (i * n + j) 0 +
          (st.arrays dmId).getD (j * n + i) 0)).2).arrays a = st.arrays a
    rw [halveDiagStore_frame _ _ _ ha]
    simp [Store.alloc, ha]
  exact ⟨hframe dmId (by omega), hframe⟩

theorem claim10_witness :
    0 < 1
      ∧ (prepareDmtril 1 ⟨fun _ => [(3 : ℚ), 7], 1⟩ 0).2.arrays 0 =
        (⟨fun _ => [(3 : ℚ), 7], 1⟩ : Store).arrays 0 :=
  ⟨by norm_num, (claim10 1 ⟨fun _ => [(3 : ℚ), 7], 1⟩ 0 (by norm_num)).1⟩

/-- Claim C7 (corrected): there is no upfront shape validation.  A density
smaller than the factor's nao is rejected — the diagonal-halving loop runs
out of range of its packed density before that matrix's block loop starts —
and nothing is returned; but in a batch every matrix preceding the first
offender is fully block-contracted before the rejection, so the call is not
rejected before any block contraction work begins: the blocks-worked count
equals the full block count for each of the b earlier matrices. -/
theorem claim7 (nao naux : ℕ) (cderi : ℕ → ℕ → ℚ) :
    ∀ (dms : List ((m : ℕ) × Matrix (Fin m) (Fin m) ℚ)) (b : ℕ)
      (hb : b < dms.length),
      (dms.get ⟨b, hb⟩).1 < nao →
      (∀ a (ha : a < b), (dms.get ⟨a, lt_trans ha hb⟩).1 = nao) →
      (runBatch nao naux cderi dms).1 = none
        ∧ (runBatch nao naux cderi dms).2 =
          b * (prange 0 naux BLOCKDIM).length := by
  intro dms
  induction dms with
  | nil =>
    intro b hb
    exact absurd hb (by simp)
  | cons d rest ih =>
    intro b hb hbad hgood
    obtain ⟨m, dmm⟩ := d
    cases b with
    | zero =>
      have hd : m < nao := hbad
      rw [runBatch_cons_none nao naux cderi m dmm rest
        (fjkG_checked_eq_none naux cderi dmm hd)]
      exact ⟨rfl, by simp⟩
    | succ b' =>
      have hdnao : m = nao := hgood 0 (by omega)
      subst nao
      have hb' : b' < rest.length := by
        have h2 := hb
        simp only [List.length_cons] at h2
        omega
      have hbad' : (rest.get ⟨b', hb'⟩).1 < m := hbad
      have hgood' : ∀ a (ha : a < b'), (rest.get ⟨a, lt_trans ha hb'⟩).1 = m :=
        fun a ha => hgood (a + 1) (by omega)
      obtain ⟨ih1, ih2⟩ := ih b' hb' hbad' hgood'
      rw [runBatch_cons_some m naux cderi m dmm rest _
        (fjkG_checked_eq_some m naux cderi dmm)]
      constructor
      · show ((runBatch m naux cderi rest).1.map _) = none
        rw [ih1]
        rfl
      · show (prange 0 naux BLOCKDIM).length + (runBatch m naux cderi rest).2 = _
        rw [ih2]
        ring

theorem claim7_witness :
    ((([⟨2, (0 : Matrix (Fin 2) (Fin 2) ℚ)⟩, ⟨1, (0 : Matrix (Fin 1) (Fin 1) ℚ)⟩] :
        List ((m : ℕ) × Matrix (Fin m) (Fin m) ℚ)).get ⟨1, by norm_num⟩).1 < 2)
      ∧ (runBatch 2 1 (fun _ _ => 0)
          [⟨2, (0 : Matrix (Fin 2) (Fin 2) ℚ)⟩,
            ⟨1, (0 : Matrix (Fin 1) (Fin 1) ℚ)⟩]).2 =
        1 * (prange 0 1 BLOCKDIM).length := by
  refine ⟨by decide, (claim7 2 1 (fun _ _ => 0)
    [⟨2, (0 : Matrix (Fin 2) (Fin 2) ℚ)⟩, ⟨1, (0 : Matrix (Fin 1) (Fin 1) ℚ)⟩]
    1 (by norm_num) (by decide) fun a ha => ?_).2⟩
  have ha0 : a = 0 := by omega
  subst ha0
  rfl

/-- Claim C7 counterexample: with nao = 2 and the batch [2×2 zero density,
1×1 zero density], the call is rejected (the second matrix's halving loop
indexes past its packed density), yet one full block of contraction work was
already performed for the first matrix — the rejection does not happen
before any block contraction work begins. -/
theorem claim7_counterexample :
    (runBatch 2 1 (fun _ _ => 0)
        [⟨2, (0 : Matrix (Fin 2) (Fin 2) ℚ)⟩,
          ⟨1, (0 : Matrix (Fin 1) (Fin 1) ℚ)⟩]).1 = none
      ∧ (runBatch 2 1 (fun _ _ => 0)
          [⟨2, (0 : Matrix (Fin 2) (Fin 2) ℚ)⟩,
            ⟨1, (0 : Matrix (Fin 1) (Fin 1) ℚ)⟩]).2 ≠ 0 := by
  constructor
  · rw [runBatch_cons_some 2 1 (fun _ _ => 0) 2 0 _ _
      (fjkG_checked_eq_some 2 1 (fun _ _ => 0) 0)]
    rw [runBatch_cons_none 2 1 (fun _ _ => 0) 1 0 []
      (fjkG_checked_eq_none 1 (fun _ _ => 0) 0 (by norm_num))]
    rfl
  · rw [runBatch_cons_some 2 1 (fun _ _ => 0) 2 0 _ _
      (fjkG_checked_eq_some 2 1 (fun _ _ => 0) 0)]
    rw [runBatch_cons_none 2 1 (fun _ _ => 0) 1 0 []
      (fjkG_checked_eq_none 1 (fun _ _ => 0) 0 (by norm_num))]
    decide

end DFHF
